import Mathlib

/-!
Shallow embedding of `src/MountainCar-v0/mountaincar_v0_sarsa_lambda_tilecode.ipynb`:
the `TileCoder` feature encoder and the `SARSALambdaAgent` (SARSA(λ) with
replacing eligibility traces over a tile-coded linear approximator).

Python floats are modelled as rationals (ℚ), numpy arrays as lists of ℚ,
the codebook dict as an insertion-ordered association list, and Python's
implementation-defined `hash` as an arbitrary function `Codeword → ℤ`
passed as a parameter (Python's `%` on a positive modulus is `Int.fmod`).
-/

/-- A codeword is the Python tuple `(layer,) + discretized coords + ints`.
All components are Python ints, except that the discrete inputs may contain
`None` (as happens when `learn` is called with `action_next=None`), so each
slot is an `Option ℤ` with `none` standing for Python's `None`. -/
abbrev Codeword := List (Option ℤ)

/-- Python `int()` on a float: truncation toward zero
(`Int.tdiv` is T-division, matching Python's `int()`). -/
def pyInt (q : ℚ) : ℤ := q.num.tdiv (q.den : ℤ)

/-- Insertion-ordered association-list lookup, modelling `codeword in self.codebook`
followed by `self.codebook[codeword]`. -/
def lookupCW : List (Codeword × ℕ) → Codeword → Option ℕ
  | [], _ => none
  | e :: rest, cw => if e.1 = cw then some e.2 else lookupCW rest cw

/-- The `class TileCoder` state: `layers`, `features` and the codebook dict
(`self.codebook = {}`), kept as an insertion-ordered list of entries. -/
structure TileCoder where
  layers : ℕ
  features : ℕ
  codebook : List (Codeword × ℕ)
deriving DecidableEq

/-- Constructor `TileCoder.__init__(layers, features)`. -/
def TileCoder.mk0 (layers features : ℕ) : TileCoder := ⟨layers, features, []⟩

/-- Method `TileCoder.get_feature(codeword)`: return the stored index if present;
otherwise, if the codebook is full, fall back to `hash(codeword) % features`
(Python `%`, i.e. `Int.fmod`); otherwise insert the codeword with index
`len(codebook)`.  Returns the index together with the updated coder. -/
def TileCoder.get_feature (hash : Codeword → ℤ) (tc : TileCoder) (cw : Codeword) :
    ℕ × TileCoder :=
  match lookupCW tc.codebook cw with
  | some idx => (idx, tc)
  | none =>
    let count := tc.codebook.length
    if tc.features ≤ count then
      (((hash cw).fmod (tc.features : ℤ)).toNat, tc)
    else
      (count, ⟨tc.layers, tc.features, tc.codebook ++ [(cw, count)]⟩)

/-- The codeword built in `TileCoder.__call__` for one `layer`:
`(layer,) + tuple(int((f + (1 + dim * i) * layer) / self.layers) for i, f in
enumerate(scaled_floats)) + ints`. -/
def mkCodeword (layers dim : ℕ) (scaled : List ℚ) (ints : List (Option ℤ))
    (layer : ℕ) : Codeword :=
  some (layer : ℤ) ::
    (scaled.enum.map fun p =>
      some (pyInt ((p.2 + ((1 + dim * p.1 : ℕ) : ℚ) * (layer : ℚ)) / (layers : ℚ))))
    ++ ints

/-- The sequence of codewords built by `TileCoder.__call__`, in layer order:
`dim = len(floats)`, `scaled_floats = tuple(f * layers * layers for f in floats)`,
one codeword per `layer in range(self.layers)`. -/
def tcCodewords (layers : ℕ) (floats : List ℚ) (ints : List (Option ℤ)) :
    List Codeword :=
  (List.range layers).map
    (mkCodeword layers floats.length (floats.map fun f => f * (layers : ℚ) * (layers : ℚ)) ints)

/-- The loop of `TileCoder.__call__`: resolve each codeword through
`get_feature`, threading the codebook state and appending each feature. -/
def TileCoder.callAux (hash : Codeword → ℤ) :
    List Codeword → List ℕ × TileCoder → List ℕ × TileCoder
  | [], acc => acc
  | cw :: rest, (idxs, tc) =>
    let p := tc.get_feature hash cw
    TileCoder.callAux hash rest (idxs ++ [p.1], p.2)

/-- Method `TileCoder.__call__(floats, ints)`: returns the list of features (one per
layer) and the updated coder. -/
def TileCoder.call (hash : Codeword → ℤ) (tc : TileCoder) (floats : List ℚ)
    (ints : List (Option ℤ)) : List ℕ × TileCoder :=
  TileCoder.callAux hash (tcCodewords tc.layers floats ints) ([], tc)

/-- Modelled from the spec (for comparison with `tcCodewords`): scale each
normalized continuous value by `layers²`; for each layer index `l` in
`[0, layers)` the codeword is `l`, then for each continuous dimension `i` with
scaled value `f` the integer `floor((f + (1 + dim*i) * l) / layers)`, followed
by the discrete inputs verbatim; codewords in increasing layer order. -/
def specEncodeCodewords (layers : ℕ) (floats : List ℚ) (ints : List (Option ℤ)) :
    List Codeword :=
  let dim := floats.length
  let scaled := floats.map fun f => f * (layers : ℚ) * (layers : ℚ)
  (List.range layers).map fun (l : ℕ) =>
    some (l : ℤ) ::
      (scaled.enum.map fun p =>
        some ⌊(p.2 + ((1 + dim * p.1 : ℕ) : ℚ) * (l : ℚ)) / (layers : ℚ)⌋)
      ++ ints

/-- Well-formedness of a reachable codebook: it holds at most `features`
entries and the entry at position `i` carries feature index `i` (so indices
record insertion order). -/
def TileCoder.Wf (tc : TileCoder) : Prop :=
  tc.codebook.length ≤ tc.features ∧
  ∀ i : Fin tc.codebook.length, (tc.codebook.get i).2 = i.1

/-- A sequence of `encode` calls threaded through one coder. -/
def encodeSeq (hash : Codeword → ℤ) (tc : TileCoder)
    (calls : List (List ℚ × List (Option ℤ))) : TileCoder :=
  calls.foldl (fun t c => (t.call hash c.1 c.2).2) tc

/-- The merged state of `SARSAAgent.__init__` / `SARSALambdaAgent.__init__`:
action count, observation bounds, the tile coder, the weight vector `w`,
the configuration scalars, the trace decay `lambd` and the trace vector `z`. -/
structure SARSALambdaAgent where
  action_n : ℕ
  obs_low : List ℚ
  obs_scale : List ℚ
  encoder : TileCoder
  w : List ℚ
  gamma : ℚ
  learning_rate : ℚ
  epsilon : ℚ
  lambd : ℚ
  z : List ℚ

/-- Constructor `SARSALambdaAgent.__init__`: fresh coder, `w = np.zeros(features)`,
`z = np.zeros(features)`. -/
def SARSALambdaAgent.mk0 (action_n : ℕ) (obs_low obs_scale : List ℚ)
    (layers features : ℕ) (gamma learning_rate epsilon lambd : ℚ) :
    SARSALambdaAgent :=
  ⟨action_n, obs_low, obs_scale, TileCoder.mk0 layers features,
   List.replicate features 0, gamma, learning_rate, epsilon, lambd,
   List.replicate features 0⟩

/-- Method `SARSAAgent.encode(observation, action)`: normalize
`(observation - obs_low) / obs_scale` elementwise and call the tile coder with
`(action,)` as the discrete inputs.  `action` is `Option ℤ` because `learn` can
forward `action_next=None` into it.  Returns the features and the agent with
the updated coder. -/
def SARSALambdaAgent.encode (hash : Codeword → ℤ) (ag : SARSALambdaAgent)
    (observation : List ℚ) (action : Option ℤ) : List ℕ × SARSALambdaAgent :=
  let states := List.zipWith (fun x s => x / s)
    (List.zipWith (fun o l => o - l) observation ag.obs_low) ag.obs_scale
  let p := ag.encoder.call hash states [action]
  (p.1, { ag with encoder := p.2 })

/-- Method `SARSAAgent.get_q(observation, action)`: `self.w[features].sum()`, summing
the weight at each returned feature index (repeats add again).  Out-of-range
indexing is modelled by `getD _ 0`; in every reachable state the returned
indices are below `features = len(w)`. -/
def SARSALambdaAgent.get_q (hash : Codeword → ℤ) (ag : SARSALambdaAgent)
    (observation : List ℚ) (action : Option ℤ) : ℚ × SARSALambdaAgent :=
  let p := ag.encode hash observation action
  ((p.1.map fun i => p.2.w.getD i 0).sum, p.2)

/-- Recursion of `np.argmax` on a nonempty list: index of the first maximum.  The running
best is replaced only on a strictly larger value. -/
def argmaxAux : List ℚ → ℚ → ℕ → ℕ → ℕ
  | [], _, best, _ => best
  | q :: qs, bv, best, i =>
    if bv < q then argmaxAux qs q i (i + 1) else argmaxAux qs bv best (i + 1)

/-- Model of `np.argmax` (first maximum; `0` on the empty list, where numpy errors). -/
def argmaxIdx : List ℚ → ℕ
  | [] => 0
  | q :: qs => argmaxAux qs q 0 1

/-- The list comp `[self.get_q(observation, action) for action in
range(self.action_n)]`, threading the coder state left to right. -/
def SARSALambdaAgent.qs (hash : Codeword → ℤ) (ag : SARSALambdaAgent)
    (observation : List ℚ) : List ℚ × SARSALambdaAgent :=
  (List.range ag.action_n).foldl
    (fun acc (a : ℕ) =>
      let p := acc.2.get_q hash observation (some (a : ℤ))
      (acc.1 ++ [p.1], p.2))
    ([], ag)

/-- Method `SARSAAgent.decide(observation)`: with the random draws made explicit —
`rand` models `np.random.rand()` (in `[0,1)`) and `randAction` models
`np.random.randint(self.action_n)`.  If `rand < epsilon` return the random
action, else the argmax of the q-values. -/
def SARSALambdaAgent.decide (hash : Codeword → ℤ) (ag : SARSALambdaAgent)
    (rand : ℚ) (randAction : ℕ) (observation : List ℚ) :
    ℕ × SARSALambdaAgent :=
  if rand < ag.epsilon then (randAction, ag)
  else
    let p := ag.qs hash observation
    (argmaxIdx p.1, p.2)

/-- The assignment `self.z[features] = 1.`: set position `i` to `v` for each listed index
(later writes win; all writes here are the same constant). -/
def setIndices (z : List ℚ) (idxs : List ℕ) (v : ℚ) : List ℚ :=
  idxs.foldl (fun zz i => zz.set i v) z

/-- The trace block of `SARSALambdaAgent.learn` (only run when not done):
`self.z *= (self.gamma * self.lambd)`, then `features = self.encode(observation,
action)`, then `self.z[features] = 1.` (replacement trace).  Returns the active
features and the updated agent. -/
def SARSALambdaAgent.learnTrace (hash : Codeword → ℤ) (ag : SARSALambdaAgent)
    (observation : List ℚ) (action : ℤ) : List ℕ × SARSALambdaAgent :=
  let ag1 := { ag with z := ag.z.map fun v => v * (ag.gamma * ag.lambd) }
  let p := ag1.encode hash observation (some action)
  (p.1, { p.2 with z := setIndices p.2.z p.1 1 })

/-- The first half of `SARSALambdaAgent.learn`: compute the target `u`
(`u = reward`, plus `self.gamma * self.get_q(observation_next, action_next)`
when not done) and, when not done, run the trace block.  Returns `u` and the
intermediate agent state. -/
def SARSALambdaAgent.learnPre (hash : Codeword → ℤ) (ag : SARSALambdaAgent)
    (observation : List ℚ) (action : ℤ) (reward : ℚ)
    (observation_next : List ℚ) (done : Bool) (action_next : Option ℤ) :
    ℚ × SARSALambdaAgent :=
  if done then (reward, ag)
  else
    let p := ag.get_q hash observation_next action_next
    (reward + ag.gamma * p.1, (p.2.learnTrace hash observation action).2)

/-- Method `SARSALambdaAgent.learn(observation, action, reward, observation_next,
done, action_next=None)`: target and trace block, then
`delta = u - self.get_q(observation, action)`, then the full-vector update
`self.w += self.learning_rate * delta * self.z`, then on `done` the reset
`self.z = np.zeros_like(self.z)`. -/
def SARSALambdaAgent.learn (hash : Codeword → ℤ) (ag : SARSALambdaAgent)
    (observation : List ℚ) (action : ℤ) (reward : ℚ)
    (observation_next : List ℚ) (done : Bool) (action_next : Option ℤ) :
    SARSALambdaAgent :=
  let q0 := ag.learnPre hash observation action reward observation_next done action_next
  let p := q0.2.get_q hash observation (some action)
  let delta := q0.1 - p.1
  let ag3 := p.2
  let ag4 := { ag3 with
    w := List.zipWith (fun wi zi => wi + ag3.learning_rate * delta * zi) ag3.w ag3.z }
  if done then { ag4 with z := List.replicate ag4.z.length 0 } else ag4

/-- One transition handed to `learn` by the training loop. -/
structure LearnCall where
  observation : List ℚ
  action : ℤ
  reward : ℚ
  observation_next : List ℚ
  done : Bool
  action_next : Option ℤ

/-- A sequence of `learn` calls threaded through one agent. -/
def runLearns (hash : Codeword → ℤ) (ag : SARSALambdaAgent)
    (cs : List LearnCall) : SARSALambdaAgent :=
  cs.foldl
    (fun a c =>
      a.learn hash c.observation c.action c.reward c.observation_next c.done c.action_next)
    ag

/-- A concrete hash function and a small concrete agent (1 action, 1-D
observation normalized by low 0 / scale 1, 1 layer, 1 feature, `gamma = 1`,
`learning_rate = 1`, `epsilon = 0`, `lambd = 1`) used for concrete instances. -/
def hash0 : Codeword → ℤ := fun _ => 0

def agW : SARSALambdaAgent := SARSALambdaAgent.mk0 1 [0] [1] 1 1 1 1 0 1

section TileCoderLemmas

/-- On nonnegative arguments Python `int()` agrees with `floor`. -/
lemma pyInt_eq_floor {q : ℚ} (h : 0 ≤ q) : pyInt q = ⌊q⌋ := by
  rw [pyInt, Rat.floor_def]
  exact Int.tdiv_eq_ediv (Rat.num_nonneg.mpr h) (Int.natCast_nonneg _)

lemma lookupCW_append {l l' : List (Codeword × ℕ)} {cw : Codeword} {i : ℕ}
    (h : lookupCW l cw = some i) : lookupCW (l ++ l') cw = some i := by
  induction l with
  | nil => simp [lookupCW] at h
  | cons e rest ih =>
    rw [lookupCW] at h
    rw [List.cons_append, lookupCW]
    by_cases he : e.1 = cw
    · rw [if_pos he] at h ⊢; exact h
    · rw [if_neg he] at h ⊢; exact ih h

lemma lookupCW_mem {l : List (Codeword × ℕ)} {cw : Codeword} {i : ℕ}
    (h : lookupCW l cw = some i) : (cw, i) ∈ l := by
  induction l with
  | nil => simp [lookupCW] at h
  | cons e rest ih =>
    rw [lookupCW] at h
    by_cases he : e.1 = cw
    · rw [if_pos he] at h
      obtain ⟨c, j⟩ := e
      have hc : c = cw := he
      injection h with h2
      subst hc; subst h2
      exact List.mem_cons_self _ _
    · rw [if_neg he] at h
      exact List.mem_cons_of_mem _ (ih h)

lemma lookupCW_lt_of_wf {tc : TileCoder} (hwf : tc.Wf) {cw : Codeword} {i : ℕ}
    (h : lookupCW tc.codebook cw = some i) : i < tc.features := by
  obtain ⟨n, hn, he⟩ := List.mem_iff_getElem.mp (lookupCW_mem h)
  have h2 := hwf.2 ⟨n, hn⟩
  rw [List.get_eq_getElem, he] at h2
  have h3 : i = n := h2
  exact h3 ▸ lt_of_lt_of_le hn hwf.1

lemma get_feature_layers (hash : Codeword → ℤ) (tc : TileCoder) (cw : Codeword) :
    (TileCoder.get_feature hash tc cw).2.layers = tc.layers := by
  rcases hl : lookupCW tc.codebook cw with _ | idx <;>
    simp only [TileCoder.get_feature, hl] <;> first | rfl | (split <;> rfl)

lemma get_feature_features (hash : Codeword → ℤ) (tc : TileCoder) (cw : Codeword) :
    (TileCoder.get_feature hash tc cw).2.features = tc.features := by
  rcases hl : lookupCW tc.codebook cw with _ | idx <;>
    simp only [TileCoder.get_feature, hl] <;> first | rfl | (split <;> rfl)

lemma get_feature_codebook (hash : Codeword → ℤ) (tc : TileCoder) (cw : Codeword) :
    ∃ ext, (TileCoder.get_feature hash tc cw).2.codebook = tc.codebook ++ ext := by
  rcases hl : lookupCW tc.codebook cw with _ | idx
  · simp only [TileCoder.get_feature, hl]
    split
    · exact ⟨[], (List.append_nil _).symm⟩
    · exact ⟨[(cw, tc.codebook.length)], rfl⟩
  · exact ⟨[], by simp only [TileCoder.get_feature, hl]; exact (List.append_nil _).symm⟩

lemma get_feature_full (hash : Codeword → ℤ) (tc : TileCoder) (cw : Codeword)
    (h : tc.features ≤ tc.codebook.length) :
    (TileCoder.get_feature hash tc cw).2 = tc := by
  rcases hl : lookupCW tc.codebook cw with _ | idx
  · simp only [TileCoder.get_feature, hl, if_pos h]
  · simp only [TileCoder.get_feature, hl]

lemma get_feature_wf (hash : Codeword → ℤ) (tc : TileCoder) (cw : Codeword)
    (hwf : tc.Wf) : (TileCoder.get_feature hash tc cw).2.Wf := by
  rcases hl : lookupCW tc.codebook cw with _ | idx
  · simp only [TileCoder.get_feature, hl]
    by_cases hf : tc.features ≤ tc.codebook.length
    · rw [if_pos hf]; exact hwf
    · rw [if_neg hf]
      constructor
      · simpa using Nat.succ_le_of_lt (lt_of_not_le hf)
      · intro i
        have hi := i.2
        simp only [List.length_append, List.length_cons, List.length_nil] at hi
        by_cases hlt : (i : ℕ) < tc.codebook.length
        · have := hwf.2 ⟨i, hlt⟩
          simp only [List.get_eq_getElem] at this ⊢
          rwa [List.getElem_append_left hlt]
        · have heq : (i : ℕ) = tc.codebook.length := by omega
          simp only [List.get_eq_getElem]
          rw [List.getElem_append_right (le_of_not_lt hlt)]
          simp [heq]
  · simpa only [TileCoder.get_feature, hl] using hwf

lemma get_feature_lt (hash : Codeword → ℤ) (tc : TileCoder) (cw : Codeword)
    (hwf : tc.Wf) (hpos : 0 < tc.features) :
    (TileCoder.get_feature hash tc cw).1 < tc.features := by
  rcases hl : lookupCW tc.codebook cw with _ | idx
  · simp only [TileCoder.get_feature, hl]
    by_cases hf : tc.features ≤ tc.codebook.length
    · rw [if_pos hf]
      have h1 : (0 : ℤ) < (tc.features : ℤ) := by exact_mod_cast hpos
      have h2 := Int.fmod_lt_of_pos (hash cw) h1
      have h3 := Int.fmod_nonneg' (hash cw) h1
      omega
    · rw [if_neg hf]
      exact lt_of_not_le hf
  · simp only [TileCoder.get_feature, hl]
    exact lookupCW_lt_of_wf hwf hl

lemma callAux_length (hash : Codeword → ℤ) (cws : List Codeword) :
    ∀ (idxs : List ℕ) (tc : TileCoder),
      (TileCoder.callAux hash cws (idxs, tc)).1.length = idxs.length + cws.length := by
  induction cws with
  | nil => intro idxs tc; simp [TileCoder.callAux]
  | cons cw rest ih =>
    intro idxs tc
    simp only [TileCoder.callAux]
    rw [ih]
    simp
    omega

lemma callAux_state (hash : Codeword → ℤ) (cws : List Codeword) :
    ∀ (idxs : List ℕ) (tc : TileCoder),
      (TileCoder.callAux hash cws (idxs, tc)).2.layers = tc.layers ∧
      (TileCoder.callAux hash cws (idxs, tc)).2.features = tc.features ∧
      ∃ ext, (TileCoder.callAux hash cws (idxs, tc)).2.codebook = tc.codebook ++ ext := by
  induction cws with
  | nil =>
    intro idxs tc
    exact ⟨rfl, rfl, [], (List.append_nil _).symm⟩
  | cons cw rest ih =>
    intro idxs tc
    simp only [TileCoder.callAux]
    obtain ⟨h1, h2, ext, h3⟩ :=
      ih (idxs ++ [(tc.get_feature hash cw).1]) (tc.get_feature hash cw).2
    refine ⟨?_, ?_, ?_⟩
    · rw [h1, get_feature_layers]
    · rw [h2, get_feature_features]
    · obtain ⟨ext0, h0⟩ := get_feature_codebook hash tc cw
      exact ⟨ext0 ++ ext, by rw [h3, h0, List.append_assoc]⟩

lemma callAux_wf (hash : Codeword → ℤ) (cws : List Codeword) :
    ∀ (idxs : List ℕ) (tc : TileCoder), tc.Wf →
      (TileCoder.callAux hash cws (idxs, tc)).2.Wf := by
  induction cws with
  | nil => intro idxs tc hwf; exact hwf
  | cons cw rest ih =>
    intro idxs tc hwf
    simp only [TileCoder.callAux]
    exact ih _ _ (get_feature_wf hash tc cw hwf)

lemma callAux_mem (hash : Codeword → ℤ) (cws : List Codeword) :
    ∀ (idxs : List ℕ) (tc : TileCoder), tc.Wf → 0 < tc.features →
      ∀ x ∈ (TileCoder.callAux hash cws (idxs, tc)).1, x ∈ idxs ∨ x < tc.features := by
  induction cws with
  | nil => intro idxs tc _ _ x hx; exact Or.inl hx
  | cons cw rest ih =>
    intro idxs tc hwf hpos x hx
    simp only [TileCoder.callAux] at hx
    have hrec := ih (idxs ++ [(tc.get_feature hash cw).1]) (tc.get_feature hash cw).2
      (get_feature_wf hash tc cw hwf)
      (by rw [get_feature_features]; exact hpos) x hx
    rcases hrec with h | h
    · rcases List.mem_append.mp h with h' | h'
      · exact Or.inl h'
      · have hx1 : x = (tc.get_feature hash cw).1 := by simpa using h'
        exact Or.inr (hx1 ▸ get_feature_lt hash tc cw hwf hpos)
    · rw [get_feature_features] at h
      exact Or.inr h

lemma callAux_full (hash : Codeword → ℤ) (cws : List Codeword) :
    ∀ (idxs : List ℕ) (tc : TileCoder), tc.features ≤ tc.codebook.length →
      (TileCoder.callAux hash cws (idxs, tc)).2 = tc := by
  induction cws with
  | nil => intro idxs tc _; rfl
  | cons cw rest ih =>
    intro idxs tc h
    simp only [TileCoder.callAux]
    rw [get_feature_full hash tc cw h]
    exact ih _ tc h

lemma call_length (hash : Codeword → ℤ) (tc : TileCoder) (floats : List ℚ)
    (ints : List (Option ℤ)) : (tc.call hash floats ints).1.length = tc.layers := by
  rw [TileCoder.call, callAux_length]
  simp [tcCodewords]

lemma call_mem (hash : Codeword → ℤ) (tc : TileCoder) (floats : List ℚ)
    (ints : List (Option ℤ)) (hwf : tc.Wf) (hpos : 0 < tc.features) :
    ∀ x ∈ (tc.call hash floats ints).1, x < tc.features := by
  intro x hx
  rcases callAux_mem hash _ [] tc hwf hpos x hx with h | h
  · simp at h
  · exact h

lemma call_features (hash : Codeword → ℤ) (tc : TileCoder) (floats : List ℚ)
    (ints : List (Option ℤ)) : (tc.call hash floats ints).2.features = tc.features :=
  (callAux_state hash _ [] tc).2.1

lemma call_codebook (hash : Codeword → ℤ) (tc : TileCoder) (floats : List ℚ)
    (ints : List (Option ℤ)) :
    ∃ ext, (tc.call hash floats ints).2.codebook = tc.codebook ++ ext :=
  (callAux_state hash _ [] tc).2.2

lemma call_wf (hash : Codeword → ℤ) (tc : TileCoder) (floats : List ℚ)
    (ints : List (Option ℤ)) (hwf : tc.Wf) : (tc.call hash floats ints).2.Wf :=
  callAux_wf hash _ [] tc hwf

lemma call_full (hash : Codeword → ℤ) (tc : TileCoder) (floats : List ℚ)
    (ints : List (Option ℤ)) (h : tc.features ≤ tc.codebook.length) :
    (tc.call hash floats ints).2 = tc :=
  callAux_full hash _ [] tc h

lemma mk0_wf (layers features : ℕ) : (TileCoder.mk0 layers features).Wf :=
  ⟨Nat.zero_le _, fun i => absurd i.2 (Nat.not_lt_zero _)⟩

lemma encodeSeq_cons (hash : Codeword → ℤ) (tc : TileCoder)
    (c : List ℚ × List (Option ℤ)) (cs : List (List ℚ × List (Option ℤ))) :
    encodeSeq hash tc (c :: cs) = encodeSeq hash (tc.call hash c.1 c.2).2 cs := rfl

lemma encodeSeq_wf (hash : Codeword → ℤ)
    (calls : List (List ℚ × List (Option ℤ))) :
    ∀ tc : TileCoder, tc.Wf → (encodeSeq hash tc calls).Wf := by
  induction calls with
  | nil => intro tc hwf; exact hwf
  | cons c cs ih =>
    intro tc hwf
    exact ih _ (call_wf hash tc c.1 c.2 hwf)

lemma encodeSeq_features (hash : Codeword → ℤ)
    (calls : List (List ℚ × List (Option ℤ))) :
    ∀ tc : TileCoder, (encodeSeq hash tc calls).features = tc.features := by
  induction calls with
  | nil => intro tc; rfl
  | cons c cs ih =>
    intro tc
    rw [encodeSeq_cons, ih, call_features]

lemma encodeSeq_codebook (hash : Codeword → ℤ)
    (calls : List (List ℚ × List (Option ℤ))) :
    ∀ tc : TileCoder, ∃ ext, (encodeSeq hash tc calls).codebook = tc.codebook ++ ext := by
  induction calls with
  | nil => intro tc; exact ⟨[], (List.append_nil _).symm⟩
  | cons c cs ih =>
    intro tc
    obtain ⟨ext1, h1⟩ := call_codebook hash tc c.1 c.2
    obtain ⟨ext2, h2⟩ := ih (tc.call hash c.1 c.2).2
    exact ⟨ext1 ++ ext2, by
      rw [encodeSeq_cons, h2, h1, List.append_assoc]⟩

lemma encodeSeq_full (hash : Codeword → ℤ)
    (calls : List (List ℚ × List (Option ℤ))) :
    ∀ tc : TileCoder, tc.features ≤ tc.codebook.length →
      encodeSeq hash tc calls = tc := by
  induction calls with
  | nil => intro tc _; rfl
  | cons c cs ih =>
    intro tc h
    rw [encodeSeq_cons, call_full hash tc c.1 c.2 h]
    exact ih tc h

end TileCoderLemmas

example : pyInt (7/2) = 3 := by norm_num [pyInt, Int.tdiv]
example : pyInt (-7/2) = -3 := by norm_num [pyInt]; decide
example :
    (TileCoder.call (fun _ => 0) (TileCoder.mk0 2 10) [0] [some 0]).1 = [0, 1] := by
  norm_num [TileCoder.call, tcCodewords, mkCodeword, pyInt, Int.tdiv, TileCoder.callAux,
    TileCoder.get_feature, TileCoder.mk0, lookupCW, List.range_succ]

lemma mem_enumFrom_snd {α : Type} :
    ∀ {l : List α} {n : ℕ} {p : ℕ × α}, p ∈ List.enumFrom n l → p.2 ∈ l := by
  intro l
  induction l with
  | nil => intro n p h; simp [List.enumFrom] at h
  | cons a t ih =>
    intro n p h
    rw [List.enumFrom] at h
    rcases List.mem_cons.mp h with h' | h'
    · rw [h']; exact List.mem_cons_self _ _
    · exact List.mem_cons_of_mem _ (ih h')

lemma mem_enum_snd {α : Type} {l : List α} {p : ℕ × α} (h : p ∈ l.enum) : p.2 ∈ l :=
  mem_enumFrom_snd h

/-- C3: on normalized continuous inputs (each value in `[0, 1]`) the codewords
generated by `TileCoder.__call__` are exactly the spec's: each continuous value
scaled by `layers²`, then for each layer `l` in increasing order the codeword
`(l, floor((f + (1 + dim*i) * l) / layers) for each dimension i, discrete
inputs verbatim)`. -/
theorem tile_codewords_formula (layers : ℕ) (floats : List ℚ)
    (ints : List (Option ℤ)) (h : ∀ f ∈ floats, 0 ≤ f ∧ f ≤ 1) :
    tcCodewords layers floats ints = specEncodeCodewords layers floats ints := by
  simp only [tcCodewords, specEncodeCodewords]
  refine List.map_congr_left fun l hl => ?_
  simp only [mkCodeword]
  congr 1
  congr 1
  refine List.map_congr_left fun p hp => ?_
  congr 1
  have hmem : p.2 ∈ floats.map fun f => f * (layers : ℚ) * (layers : ℚ) := mem_enum_snd hp
  obtain ⟨f, hf, hfe⟩ := List.mem_map.mp hmem
  have h2 : 0 ≤ p.2 := by
    rw [← hfe]
    exact mul_nonneg (mul_nonneg (h f hf).1 (Nat.cast_nonneg _)) (Nat.cast_nonneg _)
  exact pyInt_eq_floor (div_nonneg
    (add_nonneg h2 (mul_nonneg (Nat.cast_nonneg _) (Nat.cast_nonneg _)))
    (Nat.cast_nonneg _))

theorem tile_codewords_formula_witness :
    (∀ f ∈ [(1 : ℚ)/2], 0 ≤ f ∧ f ≤ 1) ∧
    tcCodewords 2 [(1 : ℚ)/2] [some 0] = specEncodeCodewords 2 [(1 : ℚ)/2] [some 0] :=
  ⟨by norm_num, tile_codewords_formula 2 [(1 : ℚ)/2] [some 0] (by norm_num)⟩

/-- C4: for every input and every well-formed (reachable) codebook state with
positive capacity, `encode` returns exactly `layers` indices, each of which
lies in `[0, features)` — also when the hash-fold fallback fires. -/
theorem encode_count_and_range (hash : Codeword → ℤ) (tc : TileCoder)
    (floats : List ℚ) (ints : List (Option ℤ))
    (hwf : tc.Wf) (hpos : 0 < tc.features) :
    (tc.call hash floats ints).1.length = tc.layers ∧
    ∀ idx ∈ (tc.call hash floats ints).1, idx < tc.features :=
  ⟨call_length hash tc floats ints, call_mem hash tc floats ints hwf hpos⟩

theorem encode_count_and_range_witness :
    ((TileCoder.mk0 2 10).call (fun _ => 0) [0] [some 0]).1.length = 2 ∧
    ∀ idx ∈ ((TileCoder.mk0 2 10).call (fun _ => 0) [0] [some 0]).1, idx < 10 :=
  encode_count_and_range (fun _ => 0) (TileCoder.mk0 2 10) [0] [some 0]
    (mk0_wf 2 10) (by decide)

/-- C5: over any sequence of `encode` calls from a fresh coder, the codebook
holds at most `features` entries; once at capacity no later call adds an
entry; the codebook only ever grows by appending (so its size is
non-decreasing and existing codeword-to-index mappings never change); and the
entry inserted at position `i` carries index `i` (first-come-first-served). -/
theorem codebook_lifecycle (hash : Codeword → ℤ) (layers features : ℕ)
    (calls more : List (List ℚ × List (Option ℤ))) :
    (encodeSeq hash (TileCoder.mk0 layers features) calls).codebook.length ≤ features ∧
    ((encodeSeq hash (TileCoder.mk0 layers features) calls).codebook.length = features →
      (encodeSeq hash (encodeSeq hash (TileCoder.mk0 layers features) calls) more).codebook =
        (encodeSeq hash (TileCoder.mk0 layers features) calls).codebook) ∧
    (∃ ext, (encodeSeq hash (encodeSeq hash (TileCoder.mk0 layers features) calls) more).codebook =
      (encodeSeq hash (TileCoder.mk0 layers features) calls).codebook ++ ext) ∧
    (∀ cw i,
      lookupCW (encodeSeq hash (TileCoder.mk0 layers features) calls).codebook cw = some i →
      lookupCW (encodeSeq hash (encodeSeq hash (TileCoder.mk0 layers features) calls) more).codebook cw
        = some i) ∧
    ∀ i : Fin (encodeSeq hash (TileCoder.mk0 layers features) calls).codebook.length,
      ((encodeSeq hash (TileCoder.mk0 layers features) calls).codebook.get i).2 = i.1 := by
  have hwf1 := encodeSeq_wf hash calls _ (mk0_wf layers features)
  have hfeat := encodeSeq_features hash calls (TileCoder.mk0 layers features)
  obtain ⟨ext, hext⟩ :=
    encodeSeq_codebook hash more (encodeSeq hash (TileCoder.mk0 layers features) calls)
  refine ⟨?_, ?_, ⟨ext, hext⟩, ?_, hwf1.2⟩
  · have h1 := hwf1.1
    rwa [hfeat] at h1
  · intro hlen
    rw [encodeSeq_full hash more _ (by rw [hfeat, hlen]; exact le_refl features)]
  · intro cw i hlook
    rw [hext]
    exact lookupCW_append hlook

theorem codebook_lifecycle_witness :
    (encodeSeq (fun _ => 0) (TileCoder.mk0 1 1) [([0], [some 0])]).codebook.length ≤ 1 ∧
    (encodeSeq (fun _ => 0) (encodeSeq (fun _ => 0) (TileCoder.mk0 1 1) [([0], [some 0])])
        [([1], [some 0])]).codebook =
      (encodeSeq (fun _ => 0) (TileCoder.mk0 1 1) [([0], [some 0])]).codebook := by
  refine ⟨(codebook_lifecycle (fun _ => 0) 1 1 [([0], [some 0])] [([1], [some 0])]).1, ?_⟩
  apply (codebook_lifecycle (fun _ => 0) 1 1 [([0], [some 0])] [([1], [some 0])]).2.1
  norm_num [encodeSeq, TileCoder.call, tcCodewords, mkCodeword, pyInt, Int.tdiv,
    TileCoder.callAux, TileCoder.get_feature, TileCoder.mk0, lookupCW, List.range_succ]

section AgentLemmas

lemma getD_map_mul (c : ℚ) (z : List ℚ) (i : ℕ) :
    (z.map fun v => v * c).getD i 0 = z.getD i 0 * c := by
  simp only [List.getD_eq_getElem?_getD, List.getElem?_map]
  cases h : z[i]? <;> simp

lemma getD_replicate_zero (n i : ℕ) : (List.replicate n (0 : ℚ)).getD i 0 = 0 := by
  simp only [List.getD_eq_getElem?_getD, List.getElem?_replicate]
  by_cases h : i < n <;> simp [h]

lemma getD_set (z : List ℚ) (j i : ℕ) (v : ℚ) :
    (z.set j v).getD i 0 = if i = j ∧ i < z.length then v else z.getD i 0 := by
  simp only [List.getD_eq_getElem?_getD, List.getElem?_set]
  by_cases h : i = j
  · subst h
    by_cases h2 : i < z.length
    · simp [h2]
    · simp [h2, List.getElem?_eq_none (le_of_not_lt h2)]
  · have h' : j ≠ i := fun hji => h hji.symm
    simp [h, h']

lemma setIndices_cons (z : List ℚ) (j : ℕ) (rest : List ℕ) (v : ℚ) :
    setIndices z (j :: rest) v = setIndices (z.set j v) rest v := rfl

lemma setIndices_getD (v : ℚ) : ∀ (idxs : List ℕ) (z : List ℚ) (i : ℕ),
    (setIndices z idxs v).getD i 0 =
      if i < z.length ∧ i ∈ idxs then v else z.getD i 0 := by
  intro idxs
  induction idxs with
  | nil => intro z i; simp [setIndices]
  | cons j rest ih =>
    intro z i
    rw [setIndices_cons, ih, List.length_set, getD_set]
    by_cases hij : i = j
    · subst hij
      by_cases hl : i < z.length
      · by_cases hr : i ∈ rest <;> simp [hr, hl, List.mem_cons]
      · by_cases hr : i ∈ rest <;> simp [hr, hl]
    · by_cases hl : i < z.length <;> by_cases hr : i ∈ rest <;>
        simp [hij, hl, hr, List.mem_cons]

lemma encode_w (hash : Codeword → ℤ) (ag : SARSALambdaAgent)
    (observation : List ℚ) (action : Option ℤ) :
    ((ag.encode hash observation action).2).w = ag.w := rfl

lemma encode_z (hash : Codeword → ℤ) (ag : SARSALambdaAgent)
    (observation : List ℚ) (action : Option ℤ) :
    ((ag.encode hash observation action).2).z = ag.z := rfl

lemma learnPre_w (hash : Codeword → ℤ) (ag : SARSALambdaAgent)
    (observation : List ℚ) (action : ℤ) (reward : ℚ)
    (observation_next : List ℚ) (done : Bool) (action_next : Option ℤ) :
    ((ag.learnPre hash observation action reward observation_next done action_next).2).w
      = ag.w := by
  cases done <;> rfl

lemma learnPre_fst (hash : Codeword → ℤ) (ag : SARSALambdaAgent)
    (observation : List ℚ) (action : ℤ) (reward : ℚ)
    (observation_next : List ℚ) (done : Bool) (action_next : Option ℤ) :
    (ag.learnPre hash observation action reward observation_next done action_next).1
      = if done then reward
        else reward + ag.gamma * (ag.get_q hash observation_next action_next).1 := by
  cases done <;> rfl

lemma learn_gamma (hash : Codeword → ℤ) (ag : SARSALambdaAgent)
    (observation : List ℚ) (action : ℤ) (reward : ℚ)
    (observation_next : List ℚ) (done : Bool) (action_next : Option ℤ) :
    (ag.learn hash observation action reward observation_next done action_next).gamma
      = ag.gamma := by
  cases done <;> rfl

lemma learn_lambd (hash : Codeword → ℤ) (ag : SARSALambdaAgent)
    (observation : List ℚ) (action : ℤ) (reward : ℚ)
    (observation_next : List ℚ) (done : Bool) (action_next : Option ℤ) :
    (ag.learn hash observation action reward observation_next done action_next).lambd
      = ag.lambd := by
  cases done <;> rfl

lemma learn_z_false (hash : Codeword → ℤ) (ag : SARSALambdaAgent)
    (observation : List ℚ) (action : ℤ) (reward : ℚ)
    (observation_next : List ℚ) (action_next : Option ℤ) :
    (ag.learn hash observation action reward observation_next false action_next).z =
      setIndices (ag.z.map fun v => v * (ag.gamma * ag.lambd))
        ((ag.get_q hash observation_next action_next).2.learnTrace hash observation action).1
        1 := rfl

lemma learn_z_true (hash : Codeword → ℤ) (ag : SARSALambdaAgent)
    (observation : List ℚ) (action : ℤ) (reward : ℚ)
    (observation_next : List ℚ) (action_next : Option ℤ) :
    (ag.learn hash observation action reward observation_next true action_next).z =
      List.replicate ag.z.length 0 := rfl

end AgentLemmas

lemma get_q_w (hash : Codeword → ℤ) (x : SARSALambdaAgent) (o : List ℚ) (a : Option ℤ) :
    ((x.get_q hash o a).2).w = x.w := rfl

lemma get_q_z (hash : Codeword → ℤ) (x : SARSALambdaAgent) (o : List ℚ) (a : Option ℤ) :
    ((x.get_q hash o a).2).z = x.z := rfl

lemma get_q_learning_rate (hash : Codeword → ℤ) (x : SARSALambdaAgent) (o : List ℚ)
    (a : Option ℤ) : ((x.get_q hash o a).2).learning_rate = x.learning_rate := rfl

lemma learnPre_learning_rate (hash : Codeword → ℤ) (ag : SARSALambdaAgent)
    (observation : List ℚ) (action : ℤ) (reward : ℚ)
    (observation_next : List ℚ) (done : Bool) (action_next : Option ℤ) :
    ((ag.learnPre hash observation action reward observation_next done
        action_next).2).learning_rate = ag.learning_rate := by
  cases done <;> rfl

lemma learnPre_true (hash : Codeword → ℤ) (ag : SARSALambdaAgent)
    (observation : List ℚ) (action : ℤ) (reward : ℚ)
    (observation_next : List ℚ) (action_next : Option ℤ) :
    (ag.learnPre hash observation action reward observation_next true action_next).2
      = ag := rfl

/-- The weight update performed by `learn`, stated against the intermediate
state after target computation and trace ops (`learnPre`). -/
lemma learn_w_char (hash : Codeword → ℤ) (ag : SARSALambdaAgent)
    (observation : List ℚ) (action : ℤ) (reward : ℚ)
    (observation_next : List ℚ) (done : Bool) (action_next : Option ℤ) :
    (ag.learn hash observation action reward observation_next done action_next).w =
      List.zipWith
        (fun wi zi => wi + ag.learning_rate *
          ((ag.learnPre hash observation action reward observation_next done action_next).1 -
           ((ag.learnPre hash observation action reward observation_next done
              action_next).2.get_q hash observation (some action)).1) * zi)
        ag.w
        ((ag.learnPre hash observation action reward observation_next done
           action_next).2).z := by
  cases done <;>
    simp only [SARSALambdaAgent.learn, Bool.false_eq_true, if_false, if_true,
      get_q_w, get_q_z, get_q_learning_rate, learnPre_w, learnPre_learning_rate]

/-- C1: every `learn` call computes the target
`u = reward + (done ? 0 : gamma * estimateValue(observation_next, action_next))`,
the TD error `delta = u - estimateValue(observation, action)` against the
current (not-yet-updated) weights — the intermediate state's weight vector is
exactly the incoming one — and then updates the whole weight vector pointwise
as `w += learning_rate * delta * z`. -/
theorem learn_td_update (hash : Codeword → ℤ) (ag : SARSALambdaAgent)
    (observation : List ℚ) (action : ℤ) (reward : ℚ)
    (observation_next : List ℚ) (done : Bool) (action_next : Option ℤ) :
    (ag.learnPre hash observation action reward observation_next done action_next).1
      = (if done then reward
         else reward + ag.gamma * (ag.get_q hash observation_next action_next).1) ∧
    ((ag.learnPre hash observation action reward observation_next done action_next).2).w
      = ag.w ∧
    (ag.learn hash observation action reward observation_next done action_next).w =
      List.zipWith
        (fun wi zi => wi + ag.learning_rate *
          ((if done then reward
            else reward + ag.gamma * (ag.get_q hash observation_next action_next).1) -
           ((ag.learnPre hash observation action reward observation_next done
              action_next).2.get_q hash observation (some action)).1) * zi)
        ag.w
        ((ag.learnPre hash observation action reward observation_next done
           action_next).2).z := by
  refine ⟨learnPre_fst hash ag observation action reward observation_next done action_next,
    learnPre_w hash ag observation action reward observation_next done action_next, ?_⟩
  rw [learn_w_char]
  simp only [learnPre_fst]

/-- C2: the trace vector is all-zero at construction; a non-terminal `learn`
first decays every entry by `gamma * lambd` and then writes exactly `1.0` at
each active index of `(observation, action)` (repeated indices still give
`1.0`); a terminal `learn` leaves `z` all-zero afterwards, and its weight
update is computed with the pre-reset trace vector. -/
theorem trace_lifecycle (hash : Codeword → ℤ) (action_n : ℕ)
    (obs_low obs_scale : List ℚ) (layers features : ℕ)
    (gamma learning_rate epsilon lambd : ℚ)
    (ag : SARSALambdaAgent) (observation : List ℚ) (action : ℤ) (reward : ℚ)
    (observation_next : List ℚ) (action_next : Option ℤ)
    (i : ℕ) (hi : i < ag.z.length) :
    (SARSALambdaAgent.mk0 action_n obs_low obs_scale layers features gamma
        learning_rate epsilon lambd).z = List.replicate features 0 ∧
    ((ag.learn hash observation action reward observation_next false action_next).z.getD i 0
      = if i ∈ ((ag.get_q hash observation_next action_next).2.learnTrace hash
            observation action).1
        then 1 else ag.z.getD i 0 * (ag.gamma * ag.lambd)) ∧
    (ag.learn hash observation action reward observation_next true action_next).z =
      List.replicate ag.z.length 0 ∧
    (ag.learn hash observation action reward observation_next true action_next).w =
      List.zipWith
        (fun wi zi => wi + ag.learning_rate *
          (reward - (ag.get_q hash observation (some action)).1) * zi)
        ag.w ag.z := by
  refine ⟨rfl, ?_,
    learn_z_true hash ag observation action reward observation_next action_next, ?_⟩
  · rw [learn_z_false, setIndices_getD, List.length_map, getD_map_mul]
    simp [hi]
  · rw [learn_w_char]
    simp only [learnPre_fst, learnPre_true, if_true]

theorem trace_lifecycle_witness :
    0 < agW.z.length ∧
    ((agW.learn hash0 [0] 0 5 [0] false (some 0)).z.getD 0 0
      = if 0 ∈ ((agW.get_q hash0 [0] (some 0)).2.learnTrace hash0 [0] 0).1
        then 1 else agW.z.getD 0 0 * (agW.gamma * agW.lambd)) :=
  ⟨by decide,
   (trace_lifecycle hash0 0 [] [] 0 0 0 0 0 0 agW [0] 0 5 [0] (some 0) 0 (by decide)).2.1⟩

lemma learnPre_ignores (hash : Codeword → ℤ) (ag : SARSALambdaAgent)
    (observation : List ℚ) (action : ℤ) (reward : ℚ)
    (observation_next : List ℚ) (x : ℤ) :
    ag.learnPre hash observation action reward observation_next true (some x) =
      ag.learnPre hash observation action reward observation_next true none := rfl

/-- C7 counterexample (the claim is false on the code): at a concrete input, a
`done=true` call with a `nextAction` supplied completes normally and returns
exactly the state of the call without it (no invalid-argument failure), and a
`done=false` call with no `nextAction` also completes normally — it encodes
the `None` placeholder and sets the trace at the resulting feature index. -/
theorem learn_no_validation :
    agW.learn hash0 [0] 0 0 [0] true (some 0) = agW.learn hash0 [0] 0 0 [0] true none ∧
    (agW.learn hash0 [0] 0 0 [0] false none).z.getD 0 0 = 1 := by
  refine ⟨rfl, ?_⟩
  norm_num [SARSALambdaAgent.learn, SARSALambdaAgent.learnPre, SARSALambdaAgent.learnTrace,
    SARSALambdaAgent.get_q, SARSALambdaAgent.encode, setIndices, TileCoder.call, tcCodewords,
    mkCodeword, pyInt, Int.tdiv, TileCoder.callAux, TileCoder.get_feature, lookupCW,
    List.range_succ, agW, SARSALambdaAgent.mk0, TileCoder.mk0, hash0, Int.fmod]
  decide

/-- C7 amended: `learn` does not enforce the precondition that `nextAction` is
present iff `done` is false: with `done=true` a supplied `nextAction` is
silently ignored — the call returns exactly the state of the call with none —
and with `done=false` a missing `nextAction` is silently encoded as the `None`
value in the next state-action codeword; no invalid-argument error exists. -/
theorem learn_ignores_next_action_when_done (hash : Codeword → ℤ)
    (ag : SARSALambdaAgent) (observation : List ℚ) (action : ℤ) (reward : ℚ)
    (observation_next : List ℚ) (x : ℤ) :
    ag.learn hash observation action reward observation_next true (some x) =
      ag.learn hash observation action reward observation_next true none := by
  simp only [SARSALambdaAgent.learn, learnPre_ignores]

lemma zipWith_add_mul_zero (c : ℚ) : ∀ (w z : List ℚ), z.length = w.length →
    (∀ v ∈ z, v = 0) → List.zipWith (fun wi zi => wi + c * zi) w z = w := by
  intro w
  induction w with
  | nil => intro z _ _; simp
  | cons a w ih =>
    intro z hlen hz
    cases z with
    | nil => simp at hlen
    | cons b z =>
      simp only [List.zipWith_cons_cons]
      have hb : b = 0 := hz b (List.mem_cons_self _ _)
      rw [hb]
      congr 1
      · ring
      · exact ih z (by simpa using hlen) fun v hv => hz v (List.mem_cons_of_mem _ hv)

/-- C10: a terminal (`done=true`) update skips the decay-and-set trace branch
entirely, so whenever the trace vector is all zeros at the call — in
particular on the very first `learn` call — the weight vector is left
completely unchanged, even though the TD error can be nonzero. -/
theorem terminal_zero_trace_keeps_w (hash : Codeword → ℤ) (ag : SARSALambdaAgent)
    (observation : List ℚ) (action : ℤ) (reward : ℚ)
    (observation_next : List ℚ) (action_next : Option ℤ)
    (hlen : ag.z.length = ag.w.length) (hz : ∀ v ∈ ag.z, v = 0) :
    (ag.learn hash observation action reward observation_next true action_next).w
      = ag.w := by
  rw [learn_w_char]
  simp only [learnPre_true]
  exact zipWith_add_mul_zero _ ag.w ag.z hlen hz

theorem terminal_zero_trace_keeps_w_witness :
    agW.z.length = agW.w.length ∧ (∀ v ∈ agW.z, v = 0) ∧
    (agW.learn hash0 [0] 0 5 [0] true (some 0)).w = agW.w :=
  ⟨rfl, fun v hv => by simpa [agW, SARSALambdaAgent.mk0] using hv,
   terminal_zero_trace_keeps_w hash0 agW [0] 0 5 [0] (some 0) rfl
     (fun v hv => by simpa [agW, SARSALambdaAgent.mk0] using hv)⟩

lemma learn_z_cases (hash : Codeword → ℤ) (ag : SARSALambdaAgent)
    (observation : List ℚ) (action : ℤ) (reward : ℚ)
    (observation_next : List ℚ) (done : Bool) (action_next : Option ℤ) (i : ℕ) :
    (ag.learn hash observation action reward observation_next done action_next).z.getD i 0
        = 0 ∨
    (ag.learn hash observation action reward observation_next done action_next).z.getD i 0
        = 1 ∨
    (ag.learn hash observation action reward observation_next done action_next).z.getD i 0
        = ag.z.getD i 0 * (ag.gamma * ag.lambd) := by
  cases done
  · rw [learn_z_false, setIndices_getD, List.length_map, getD_map_mul]
    split_ifs with h
    · exact Or.inr (Or.inl rfl)
    · exact Or.inr (Or.inr rfl)
  · rw [learn_z_true]
    exact Or.inl (getD_replicate_zero _ _)

lemma runLearns_cons (hash : Codeword → ℤ) (ag : SARSALambdaAgent)
    (c : LearnCall) (cs : List LearnCall) :
    runLearns hash ag (c :: cs) =
      runLearns hash
        (ag.learn hash c.observation c.action c.reward c.observation_next c.done c.action_next)
        cs := rfl

lemma runLearns_z_nonneg (hash : Codeword → ℤ) (cs : List LearnCall) :
    ∀ ag : SARSALambdaAgent, 0 ≤ ag.gamma * ag.lambd →
      (∀ i, 0 ≤ ag.z.getD i 0) → ∀ i, 0 ≤ (runLearns hash ag cs).z.getD i 0 := by
  induction cs with
  | nil => intro ag _ hz i; exact hz i
  | cons c cs ih =>
    intro ag hgl hz i
    rw [runLearns_cons]
    refine ih _ (by rw [learn_gamma, learn_lambd]; exact hgl) (fun j => ?_) i
    rcases learn_z_cases hash ag c.observation c.action c.reward c.observation_next
      c.done c.action_next j with h | h | h
    · rw [h]
    · rw [h]; exact zero_le_one
    · rw [h]; exact mul_nonneg (hz j) hgl

lemma runLearns_z_bounds (hash : Codeword → ℤ) (cs : List LearnCall) :
    ∀ ag : SARSALambdaAgent, 0 ≤ ag.gamma * ag.lambd → ag.gamma * ag.lambd ≤ 1 →
      (∀ i, 0 ≤ ag.z.getD i 0 ∧ ag.z.getD i 0 ≤ 1) →
      ∀ i, 0 ≤ (runLearns hash ag cs).z.getD i 0 ∧ (runLearns hash ag cs).z.getD i 0 ≤ 1 := by
  induction cs with
  | nil => intro ag _ _ hz i; exact hz i
  | cons c cs ih =>
    intro ag hgl0 hgl1 hz i
    rw [runLearns_cons]
    refine ih _ (by rw [learn_gamma, learn_lambd]; exact hgl0)
      (by rw [learn_gamma, learn_lambd]; exact hgl1) (fun j => ?_) i
    rcases learn_z_cases hash ag c.observation c.action c.reward c.observation_next
      c.done c.action_next j with h | h | h
    · rw [h]; exact ⟨le_refl 0, zero_le_one⟩
    · rw [h]; exact ⟨zero_le_one, le_refl 1⟩
    · rw [h]; exact ⟨mul_nonneg (hz j).1 hgl0, mul_le_one₀ (hz j).2 hgl0 hgl1⟩

/-- C8: from construction with `gamma ≥ 0` and `0 ≤ lambda ≤ 1`, after any
sequence of `learn` calls every trace entry is nonnegative (replacing traces
are only ever reset to `0`, set to `1`, or decayed by `gamma * lambda ≥ 0`). -/
theorem traces_nonneg (hash : Codeword → ℤ) (action_n : ℕ)
    (obs_low obs_scale : List ℚ) (layers features : ℕ)
    (gamma learning_rate epsilon lambd : ℚ)
    (hg : 0 ≤ gamma) (hl0 : 0 ≤ lambd) (hl1 : lambd ≤ 1)
    (cs : List LearnCall) (i : ℕ) :
    0 ≤ (runLearns hash
          (SARSALambdaAgent.mk0 action_n obs_low obs_scale layers features gamma
            learning_rate epsilon lambd) cs).z.getD i 0 := by
  refine runLearns_z_nonneg hash cs _ (mul_nonneg hg hl0) (fun j => ?_) i
  exact le_of_eq (getD_replicate_zero features j).symm

theorem traces_nonneg_witness :
    (0 : ℚ) ≤ 1 ∧
    0 ≤ (runLearns hash0 (SARSALambdaAgent.mk0 1 [0] [1] 1 1 1 1 0 1)
          [⟨[0], 0, 5, [0], false, some 0⟩]).z.getD 0 0 :=
  ⟨zero_le_one,
   traces_nonneg hash0 1 [0] [1] 1 1 1 1 0 1 zero_le_one zero_le_one (le_refl 1)
     [⟨[0], 0, 5, [0], false, some 0⟩] 0⟩

/-- C9: from construction with `0 ≤ gamma * lambda ≤ 1`, after any sequence of
`learn` calls every trace entry is at most `1` (replacing traces start at `0`
and are only reset, set to exactly `1`, or shrunk by `gamma * lambda`). -/
theorem traces_le_one (hash : Codeword → ℤ) (action_n : ℕ)
    (obs_low obs_scale : List ℚ) (layers features : ℕ)
    (gamma learning_rate epsilon lambd : ℚ)
    (h0 : 0 ≤ gamma * lambd) (h1 : gamma * lambd ≤ 1)
    (cs : List LearnCall) (i : ℕ) :
    (runLearns hash
        (SARSALambdaAgent.mk0 action_n obs_low obs_scale layers features gamma
          learning_rate epsilon lambd) cs).z.getD i 0 ≤ 1 := by
  refine (runLearns_z_bounds hash cs _ h0 h1 (fun j => ?_) i).2
  have hj : (SARSALambdaAgent.mk0 action_n obs_low obs_scale layers features gamma
      learning_rate epsilon lambd).z.getD j 0 = 0 := getD_replicate_zero features j
  rw [hj]
  exact ⟨le_refl 0, zero_le_one⟩

theorem traces_le_one_witness :
    (0 : ℚ) ≤ 1 * 1 ∧
    (runLearns hash0 (SARSALambdaAgent.mk0 1 [0] [1] 1 1 1 1 0 1)
        [⟨[0], 0, 5, [0], false, some 0⟩]).z.getD 0 0 ≤ 1 :=
  ⟨by norm_num,
   traces_le_one hash0 1 [0] [1] 1 1 1 1 0 1 (by norm_num) (by norm_num)
     [⟨[0], 0, 5, [0], false, some 0⟩] 0⟩

lemma argmaxAux_spec (L : List ℚ) :
    ∀ (s : List ℚ) (n best : ℕ), s = L.drop n → best < n → n ≤ L.length →
      (∀ j, j < n → L.getD j 0 ≤ L.getD best 0) →
      (∀ j, j < best → L.getD j 0 < L.getD best 0) →
      argmaxAux s (L.getD best 0) best n < L.length ∧
      (∀ j, j < L.length → L.getD j 0 ≤ L.getD (argmaxAux s (L.getD best 0) best n) 0) ∧
      (∀ j, j < argmaxAux s (L.getD best 0) best n →
        L.getD j 0 < L.getD (argmaxAux s (L.getD best 0) best n) 0) := by
  intro s
  induction s with
  | nil =>
    intro n best hdrop hbn hnL hmax hfirst
    have hn : L.length ≤ n := List.drop_eq_nil_iff.mp hdrop.symm
    simp only [argmaxAux]
    exact ⟨by omega, fun j hj => hmax j (by omega), fun j hj => hfirst j hj⟩
  | cons q rest ih =>
    intro n best hdrop hbn hnL hmax hfirst
    have hnlt : n < L.length := by
      by_contra hge
      rw [List.drop_eq_nil_of_le (le_of_not_lt hge)] at hdrop
      exact absurd hdrop (List.cons_ne_nil q rest)
    rw [List.drop_eq_getElem_cons hnlt] at hdrop
    injection hdrop with hq hrest
    have hqD : q = L.getD n 0 := by
      rw [hq]
      simp [List.getD_eq_getElem?_getD, List.getElem?_eq_getElem hnlt]
    simp only [argmaxAux]
    rw [hqD]
    by_cases hlt : L.getD best 0 < L.getD n 0
    · rw [if_pos hlt]
      refine ih (n + 1) n hrest (Nat.lt_succ_self n) hnlt (fun j hj => ?_) fun j hj => ?_
      · rcases Nat.lt_succ_iff_lt_or_eq.mp hj with hj' | hj'
        · exact le_of_lt (lt_of_le_of_lt (hmax j hj') hlt)
        · subst hj'; exact le_refl _
      · exact lt_of_le_of_lt (hmax j hj) hlt
    · rw [if_neg hlt]
      refine ih (n + 1) best hrest (by omega) hnlt (fun j hj => ?_) hfirst
      rcases Nat.lt_succ_iff_lt_or_eq.mp hj with hj' | hj'
      · exact hmax j hj'
      · subst hj'; exact not_lt.mp hlt

lemma argmaxIdx_spec (L : List ℚ) (hL : L ≠ []) :
    argmaxIdx L < L.length ∧
    (∀ j, j < L.length → L.getD j 0 ≤ L.getD (argmaxIdx L) 0) ∧
    ∀ j, j < argmaxIdx L → L.getD j 0 < L.getD (argmaxIdx L) 0 := by
  cases L with
  | nil => exact absurd rfl hL
  | cons q rest =>
    have h := argmaxAux_spec (q :: rest) rest 1 0 rfl Nat.zero_lt_one (by simp)
      (fun j hj => by
        have hj0 : j = 0 := by omega
        subst hj0; exact le_refl _)
      (fun j hj => absurd hj (Nat.not_lt_zero j))
    simp only [argmaxIdx]
    exact h

lemma qs_len_aux (hash : Codeword → ℤ) (observation : List ℚ) :
    ∀ (l : List ℕ) (init : List ℚ × SARSALambdaAgent),
      (List.foldl
        (fun acc a =>
          let p := acc.2.get_q hash observation (some (a : ℤ))
          (acc.1 ++ [p.1], p.2)) init l).1.length = init.1.length + l.length := by
  intro l
  induction l with
  | nil => intro init; simp
  | cons a t ih =>
    intro init
    rw [List.foldl_cons, ih]
    simp only [List.length_append, List.length_cons, List.length_nil]
    omega

lemma qs_length (hash : Codeword → ℤ) (ag : SARSALambdaAgent) (observation : List ℚ) :
    (ag.qs hash observation).1.length = ag.action_n := by
  rw [SARSALambdaAgent.qs, qs_len_aux]
  simp

/-- C6: with `epsilon = 0` (and the random draw `rand` nonnegative, as
`np.random.rand()` always is), `decide` never takes the random branch and
returns the first-maximum argmax of the q-values over actions `[0, A)`: the
returned index is below `A`, its q-value is maximal, and every earlier action
has a strictly smaller q-value. -/
theorem decide_greedy (hash : Codeword → ℤ) (ag : SARSALambdaAgent)
    (rand : ℚ) (randAction : ℕ) (observation : List ℚ)
    (heps : ag.epsilon = 0) (hr : 0 ≤ rand) (hA : 0 < ag.action_n) :
    (ag.decide hash rand randAction observation).1 =
      argmaxIdx (ag.qs hash observation).1 ∧
    argmaxIdx (ag.qs hash observation).1 < ag.action_n ∧
    (∀ a, a < ag.action_n →
      (ag.qs hash observation).1.getD a 0 ≤
        (ag.qs hash observation).1.getD (argmaxIdx (ag.qs hash observation).1) 0) ∧
    ∀ a, a < argmaxIdx (ag.qs hash observation).1 →
      (ag.qs hash observation).1.getD a 0 <
        (ag.qs hash observation).1.getD (argmaxIdx (ag.qs hash observation).1) 0 := by
  have hlen := qs_length hash ag observation
  have hne : (ag.qs hash observation).1 ≠ [] := by
    intro h0
    rw [h0] at hlen
    simp at hlen
    omega
  obtain ⟨h1, h2, h3⟩ := argmaxIdx_spec _ hne
  have hnr : ¬ rand < ag.epsilon := by rw [heps]; exact not_lt.mpr hr
  refine ⟨?_, by rwa [hlen] at h1, fun a ha => h2 a (by rwa [hlen]), h3⟩
  simp only [SARSALambdaAgent.decide, hnr, if_false]

theorem decide_greedy_witness :
    agW.epsilon = 0 ∧ (0 : ℚ) ≤ 0 ∧ 0 < agW.action_n ∧
    (agW.decide hash0 0 0 [0]).1 = argmaxIdx (agW.qs hash0 [0]).1 :=
  ⟨rfl, le_refl 0, by decide,
   (decide_greedy hash0 agW 0 0 [0] rfl (le_refl 0) (by decide)).1⟩
